import Mathlib

/-!
Shallow embedding of the core of `check_aur_updates.py` from the
cloudflare-archlinux-repo repository, together with proofs checking the
natural-language specification against it.

The embedded functions are:
  * `parse_package_filename` — parse `{name}-{version}-{arch}.pkg.tar.zst`
    into a `(name, version, arch)` triple (or `none`),
  * `parse_arch_version` — parse `[epoch:]pkgver[-pkgrel]` into the tuple
    `(epoch, pkgver_parts, pkgrel)` used for comparison,
  * `compare_versions` — the three-way comparison returning `1`, `-1` or `0`.

Strings are modelled as Lean `String`s over their character lists.  The
model is faithful to CPython on the character set it covers: all of ASCII
(including Python `int()`'s underscore digit grouping and its full ASCII
whitespace set, and the Python regex `$` that also matches just before one
trailing newline), together with the Latin-1 superscript digits `¹²³`,
which CPython's `str.isdigit` accepts while `int()` rejects — the
characters that make the `except ValueError` branch of `compare_versions`
reachable.  Other non-ASCII characters (further Unicode digits, alphabetic
characters and whitespace) are outside the model's scope.
-/

namespace CheckAurUpdates

/-! ### A model of Python's `int(str)` conversion

`int(s)` strips surrounding whitespace, then accepts an optional single
`+`/`-` sign followed by a non-empty run of digits in which a single `_`
may appear between two digits (underscore digit grouping, `int("1_0") =
10`), raising `ValueError` otherwise.  Non-ASCII digits accepted by
CPython are outside the model's character scope.  Failure is modelled as
`none`. -/

/-- Numeric value of a digit string, most significant digit first
(the usual base-10 reading performed by Python's `int`). -/
def digitsVal (l : List Char) : Nat :=
  l.foldl (fun acc c => acc * 10 + (c.toNat - '0'.toNat)) 0

/-- The ASCII characters Python's `int()` strips as whitespace:
`\t`, `\n`, `\x0b`, `\x0c`, `\r` and space. -/
def pyWs (c : Char) : Bool :=
  c = '\t' || c = '\n' || c = '\x0b' || c = '\x0c' || c = '\r' || c = ' '

/-- Strip leading and trailing whitespace, as Python's `int` does before
parsing. -/
def stripWs (l : List Char) : List Char :=
  ((l.dropWhile pyWs).reverse.dropWhile pyWs).reverse

/-- After the leading digit: each further character is a digit, or an `_`
that must be immediately followed by a digit (no leading, trailing or
doubled underscores — exactly CPython's grouping rule). -/
def pyDigitsAux : List Char → Bool
  | [] => true
  | c :: rest =>
    if c = '_' then
      match rest with
      | d :: rest2 => d.isDigit && pyDigitsAux rest2
      | [] => false
    else c.isDigit && pyDigitsAux rest

/-- A non-empty digit run with optional underscore grouping: the body of a
Python integer literal accepted by `int`. -/
def pyNatOk : List Char → Bool
  | [] => false
  | c :: rest => c.isDigit && pyDigitsAux rest

/-- The unsigned part of `int()`: underscores are dropped before reading
the digits. -/
def pyNat (l : List Char) : Option Nat :=
  if pyNatOk l then some (digitsVal (l.filter (fun c => c != '_'))) else none

/-- Optional sign handling of Python's `int`. -/
def pyIntCore : List Char → Option Int
  | [] => none
  | c :: rest =>
    if c = '-' then (pyNat rest).map (fun n => -(n : Int))
    else if c = '+' then (pyNat rest).map (fun n => (n : Int))
    else (pyNat (c :: rest)).map (fun n => (n : Int))

/-- Model of Python `int(s)`: `some` on success, `none` where CPython raises
`ValueError`. -/
def pyIntL (l : List Char) : Option Int :=
  pyIntCore (stripWs l)

/-- `pyIntL` on a `String`. -/
def pyInt (s : String) : Option Int :=
  pyIntL s.toList

/-! ### `parse_arch_version`

Returns `(epoch, pkgver_parts, pkgrel)` exactly as the Python function does:
`epoch` from the text before the first `:` (via `int`, defaulting to `0` on
`ValueError`), `pkgrel` from the text after the last `-` (same defaulting),
and `pkgver_parts` the list of `(type, value)` pairs produced by the
character scan, with type `0` for digit runs, `1` for single letters and
`2` for any other single character. -/

/-- `s.split(sep, 1)`: split at the first occurrence of `sep`; `none` when
`sep` does not occur (the Python code guards the split with `sep in s`). -/
def splitFirst (sep : Char) : List Char → Option (List Char × List Char)
  | [] => none
  | c :: rest =>
    if c = sep then some ([], rest)
    else (splitFirst sep rest).map (fun p => (c :: p.1, p.2))

/-- `s.rsplit(sep, 1)`: split at the last occurrence of `sep`; `none` when
`sep` does not occur. -/
def splitLast (sep : Char) (l : List Char) : Option (List Char × List Char) :=
  (splitFirst sep l.reverse).map (fun p => (p.2.reverse, p.1.reverse))

/-- Flush the pending digit buffer: `if current: pkgver_parts.append((0, current))`. -/
def flushCur (current : List Char) : List (Nat × String) :=
  if current = [] then [] else [(0, String.mk current)]

/-- Python `str.isalpha` on the model's character scope: the ASCII letters
(non-ASCII alphabetic characters are outside the scope). -/
def pyIsAlpha (c : Char) : Bool := c.isAlpha

/-- Python `str.isdigit` on the model's character scope: the ASCII digits
together with the Latin-1 superscript digits `¹²³`, which `str.isdigit`
accepts although `int()` rejects them — the inputs on which the
`except ValueError` branch of the comparison loop is reachable. -/
def pyIsDigit (c : Char) : Bool :=
  c.isDigit || c = '¹' || c = '²' || c = '³'

/-- The character-classification loop of `parse_arch_version`: characters
with `isdigit()` accumulate into `cur`; a letter flushes `cur` and is
emitted as a type-`1` part; any other character flushes `cur` and is
emitted as a type-`2` part; a trailing buffer is flushed at the end
(`isalpha()` is tested before `isdigit()`, as in the source). -/
def segLoop (cur : List Char) : List Char → List (Nat × String)
  | [] => flushCur cur
  | c :: rest =>
    if pyIsAlpha c then flushCur cur ++ (1, String.mk [c]) :: segLoop [] rest
    else if pyIsDigit c then segLoop (cur ++ [c]) rest
    else flushCur cur ++ (2, String.mk [c]) :: segLoop [] rest

/-- `parse_arch_version(version_string)` from `check_aur_updates.py`. -/
def parse_arch_version (version_string : String) : Int × List (Nat × String) × Int :=
  let vl := version_string.toList
  let er : Int × List Char :=
    match splitFirst ':' vl with
    | some (epochStr, rest) => ((pyIntL epochStr).getD 0, rest)
    | none => (0, vl)
  let vr : List Char × Int :=
    match splitLast '-' er.2 with
    | some (pkgver, relStr) => (pkgver, (pyIntL relStr).getD 0)
    | none => (er.2, 0)
  (er.1, segLoop [] vr.1, vr.2)

/-! ### `compare_versions` -/

/-- The body of the segment-comparison loop of `compare_versions` for one
position, returning `0` where the Python loop falls through to the next
position.  For equal type `0` both values go through `int()`; on
`ValueError` (either value) the `except` branch compares the raw strings. -/
def segCmp (s1 s2 : Nat × String) : Int :=
  if s1.1 = s2.1 then
    if s1.1 = 0 then
      match pyInt s1.2, pyInt s2.2 with
      | some n1, some n2 => if n1 ≠ n2 then (if n2 < n1 then 1 else -1) else 0
      | _, _ => if s1.2 ≠ s2.2 then (if s2.2 < s1.2 then 1 else -1) else 0
    else
      if s1.2 ≠ s2.2 then (if s2.2 < s1.2 then 1 else -1) else 0
  else
    if s2.1 < s1.1 then 1 else -1

/-- The segment loop of `compare_versions` followed by its length
tie-break: walk both part lists pairwise, short-circuiting on the first
non-`0` `segCmp`; if one list is exhausted first the longer list wins. -/
def cmpParts : List (Nat × String) → List (Nat × String) → Int
  | [], [] => 0
  | [], _ :: _ => -1
  | _ :: _, [] => 1
  | s1 :: r1, s2 :: r2 =>
    if segCmp s1 s2 ≠ 0 then segCmp s1 s2 else cmpParts r1 r2

/-- `compare_versions(v1, v2)` from `check_aur_updates.py`: epoch first,
then the segment loop with length tie-break, then `pkgrel`. -/
def compare_versions (v1 v2 : String) : Int :=
  let p1 := parse_arch_version v1
  let p2 := parse_arch_version v2
  if p1.1 ≠ p2.1 then (if p2.1 < p1.1 then 1 else -1)
  else
    let c := cmpParts p1.2.1 p2.2.1
    if c ≠ 0 then c
    else if p1.2.2 ≠ p2.2.2 then (if p2.2.2 < p1.2.2 then 1 else -1)
    else 0

/-! ### `parse_package_filename` -/

/-- The literal extension `.pkg.tar.zst`. -/
def pkgSuffix : List Char := ".pkg.tar.zst".toList

/-- The architecture alternatives of the regex `-(x86_64|i686|armv7h|aarch64)$`. -/
def archTokens : List (List Char) :=
  ["x86_64".toList, "i686".toList, "armv7h".toList, "aarch64".toList]

/-- Whether the whole remaining input `l` is a match of `-(token)$` for the
token `t`: Python's `$` (without `re.MULTILINE`) matches at the end of the
string and also just before a newline that is the last character, so the
remainder is `-t` or `-t` followed by one final newline. -/
def archSuffixAt (l : List Char) (t : List Char) : Bool :=
  l == '-' :: t || l == '-' :: (t ++ ['\n'])

/-- `re.search(r'-(x86_64|i686|armv7h|aarch64)$', base)`: the leftmost
position `p` such that the whole rest of `base` from `p` matches
`-(token)$` (a match runs to the `$`, i.e. to the end of the string or to
just before one trailing newline).  Returns the match start and the
captured token. -/
def findArch : List Char → Option (Nat × List Char)
  | [] => none
  | c :: rest =>
    match archTokens.find? (fun t => archSuffixAt (c :: rest) t) with
    | some t => some (0, t)
    | none => (findArch rest).map (fun p => (p.1 + 1, p.2))

/-- Whether a list starts with a digit (the `\d` after the `-` in
`re.search(r'-\d+(\.\d+)*', base)`; the rest of that pattern only extends
the match and never changes the match start, which is all the code uses). -/
def headDigit : List Char → Bool
  | [] => false
  | d :: _ => d.isDigit

/-- `re.search(r'-\d+(\.\d+)*', base).start()`: the leftmost index whose
character is `-` immediately followed by a digit. -/
def findVerStart : List Char → Option Nat
  | [] => none
  | c :: rest =>
    if c = '-' ∧ headDigit rest then some 0
    else (findVerStart rest).map (fun q => q + 1)

/-- One character of the name whitelist `[a-zA-Z0-9@._+-]`. -/
def allowedNameChar (c : Char) : Bool :=
  c.isAlpha || c.isDigit || c = '@' || c = '.' || c = '_' || c = '+' || c = '-'

/-- Remove one trailing newline, if present: the portion of the input a
`$`-terminated Python pattern must cover. -/
def stripOneNl (l : List Char) : List Char :=
  if l.getLast? = some '\n' then l.dropLast else l

/-- `re.match(r'^[a-zA-Z0-9@._+-]+$', name)`: after setting aside one
optional trailing newline (matched by `$`), the rest is non-empty and every
character is in the whitelist. -/
def nameOk (l : List Char) : Bool :=
  !(stripOneNl l).isEmpty && (stripOneNl l).all allowedNameChar

/-- `re.match(r'^[a-zA-Z0-9_]+$', arch)`, with the same `$` semantics. -/
def archOk (l : List Char) : Bool :=
  !(stripOneNl l).isEmpty && (stripOneNl l).all (fun c => c.isAlphanum || c = '_')

/-- `parse_package_filename(filename)` from `check_aur_updates.py`.
`filename.endswith('.pkg.tar.zst')` together with the slice
`filename[:-len('.pkg.tar.zst')]` is rendered as the length guard plus
`take`/`drop` on the character list. -/
def parse_package_filename (filename : String) : Option (String × String × String) :=
  let fl := filename.toList
  if pkgSuffix.length ≤ fl.length ∧ fl.drop (fl.length - pkgSuffix.length) = pkgSuffix then
    let base := fl.take (fl.length - pkgSuffix.length)
    match findArch base with
    | none => none
    | some (p, tok) =>
      let base2 := base.take p
      match findVerStart base2 with
      | none => none
      | some q =>
        let name := base2.take q
        let version := base2.drop (q + 1)
        if nameOk name && archOk tok then
          some (String.mk name, String.mk version, String.mk tok)
        else none
  else none

/-! ### Helper lemmas: Python `int` on digit runs -/

theorem digit_not_pyWs (c : Char) (h : c.isDigit = true) : pyWs c = false := by
  by_contra hw
  rw [Bool.not_eq_false] at hw
  simp only [pyWs, Bool.or_eq_true, decide_eq_true_eq] at hw
  rcases hw with (((((h1 | h1) | h1) | h1) | h1) | h1) <;>
    subst h1 <;> exact absurd h (by decide)

theorem digit_ne_dash (c : Char) (h : c.isDigit = true) : c ≠ '-' := by
  intro hc; subst hc; exact absurd h (by decide)

theorem digit_ne_plus (c : Char) (h : c.isDigit = true) : c ≠ '+' := by
  intro hc; subst hc; exact absurd h (by decide)

theorem digit_ne_underscore (c : Char) (h : c.isDigit = true) : c ≠ '_' := by
  intro hc; subst hc; exact absurd h (by decide)

theorem dropWhile_eq_self_of_no (p : Char → Bool) (l : List Char)
    (h : ∀ c ∈ l, p c = false) : l.dropWhile p = l := by
  cases l with
  | nil => rfl
  | cons c cs => simp [List.dropWhile, h c (List.mem_cons_self c cs)]

theorem stripWs_eq_self (l : List Char) (h : ∀ c ∈ l, pyWs c = false) :
    stripWs l = l := by
  unfold stripWs
  rw [dropWhile_eq_self_of_no _ l h,
    dropWhile_eq_self_of_no _ l.reverse (fun c hc => h c (List.mem_reverse.mp hc)),
    List.reverse_reverse]

theorem pyDigitsAux_digits :
    ∀ (l : List Char), l.all Char.isDigit = true → pyDigitsAux l = true := by
  intro l
  induction l with
  | nil => intro _; rfl
  | cons c rest ih =>
    intro hall
    have hc : c.isDigit = true := by simpa using List.all_eq_true.mp hall c (by simp)
    have hrest : rest.all Char.isDigit = true := by
      rw [List.all_eq_true]
      intro x hx
      exact List.all_eq_true.mp hall x (by simp [hx])
    unfold pyDigitsAux
    rw [if_neg (digit_ne_underscore c hc), hc, ih hrest]
    rfl

theorem filter_ne_underscore_of_digits (l : List Char) (hd : l.all Char.isDigit = true) :
    l.filter (fun c => c != '_') = l := by
  rw [List.filter_eq_self]
  intro a ha
  have had : a.isDigit = true := by simpa using List.all_eq_true.mp hd a ha
  simp only [bne_iff_ne]
  exact digit_ne_underscore a had

theorem pyIntL_digits (l : List Char) (hne : l ≠ []) (hd : l.all Char.isDigit = true) :
    pyIntL l = some (digitsVal l) := by
  have hnw : ∀ c ∈ l, pyWs c = false := fun c hc =>
    digit_not_pyWs c (by simpa using List.all_eq_true.mp hd c hc)
  unfold pyIntL
  rw [stripWs_eq_self l hnw]
  cases l with
  | nil => exact absurd rfl hne
  | cons c cs =>
    have hcd : c.isDigit = true := by simpa using (List.all_eq_true.mp hd c (by simp))
    have hcs : cs.all Char.isDigit = true := by
      rw [List.all_eq_true]
      intro x hx
      exact List.all_eq_true.mp hd x (by simp [hx])
    have hok : pyNatOk (c :: cs) = true := by
      simp [pyNatOk, hcd, pyDigitsAux_digits cs hcs]
    simp only [pyIntCore]
    rw [if_neg (digit_ne_dash c hcd), if_neg (digit_ne_plus c hcd)]
    unfold pyNat
    rw [if_pos hok, filter_ne_underscore_of_digits (c :: cs) hd]
    rfl

/-! ### Three-way comparisons through a linear order

`keyCmp` is the `1` / `-1` / `0` three-way comparison of a linear order;
the `if x != y: return 1 if x > y else -1` idiom of the Python code is
shown equal to it, which drives the positional lemmas below. -/

/-- Three-way comparison of a linear order, with the `1` / `-1` / `0`
encoding the Python code uses. -/
def keyCmp {α : Type} [LinearOrder α] (x y : α) : Int :=
  if x < y then -1 else if y < x then 1 else 0

theorem keyCmp_eq_zero_iff {α : Type} [LinearOrder α] (x y : α) :
    keyCmp x y = 0 ↔ x = y := by
  unfold keyCmp
  rcases lt_trichotomy x y with h | h | h
  · rw [if_pos h]
    exact ⟨fun hh => absurd hh (by decide), fun hh => absurd hh (ne_of_lt h)⟩
  · subst h
    rw [if_neg (lt_irrefl x), if_neg (lt_irrefl x)]
    exact ⟨fun _ => rfl, fun _ => rfl⟩
  · rw [if_neg (asymm h), if_pos h]
    exact ⟨fun hh => absurd hh (by decide), fun hh => absurd hh.symm (ne_of_lt h)⟩

theorem keyCmp_eq_one_iff {α : Type} [LinearOrder α] (x y : α) :
    keyCmp x y = 1 ↔ y < x := by
  unfold keyCmp
  rcases lt_trichotomy x y with h | h | h
  · rw [if_pos h]
    exact ⟨fun hh => absurd hh (by decide), fun hh => absurd hh (asymm h)⟩
  · subst h
    rw [if_neg (lt_irrefl x), if_neg (lt_irrefl x)]
    exact ⟨fun hh => absurd hh (by decide), fun hh => absurd hh (lt_irrefl x)⟩
  · rw [if_neg (asymm h), if_pos h]
    exact ⟨fun _ => h, fun _ => rfl⟩

theorem keyCmp_eq_negOne_iff {α : Type} [LinearOrder α] (x y : α) :
    keyCmp x y = -1 ↔ x < y := by
  unfold keyCmp
  rcases lt_trichotomy x y with h | h | h
  · rw [if_pos h]
    exact ⟨fun _ => h, fun _ => rfl⟩
  · subst h
    rw [if_neg (lt_irrefl x), if_neg (lt_irrefl x)]
    exact ⟨fun hh => absurd hh (by decide), fun hh => absurd hh (lt_irrefl x)⟩
  · rw [if_neg (asymm h), if_pos h]
    exact ⟨fun hh => absurd hh (by decide), fun hh => absurd hh (asymm h)⟩

/-- The `if x != y: return 1 if x > y else -1` idiom equals `keyCmp`
(stated over arbitrary `Decidable` instances so it applies whichever
instance elaborated the embedded code). -/
theorem pyCmp_eq_keyCmp {α : Type} [LinearOrder α] (x y : α)
    {dne : Decidable (x ≠ y)} {dlt : Decidable (y < x)} :
    (@ite Int (x ≠ y) dne (@ite Int (y < x) dlt 1 (-1)) 0) = keyCmp x y := by
  unfold keyCmp
  rcases lt_trichotomy x y with h | h | h
  · rw [if_pos (ne_of_lt h), if_neg (asymm h), if_pos h]
  · subst h
    rw [if_neg (by simp), if_neg (lt_irrefl x), if_neg (lt_irrefl x)]
  · rw [if_pos (ne_of_gt h), if_pos h, if_neg (asymm h), if_pos h]

/-- The Python comparison idiom returns `0` only on equal values. -/
theorem pyCmp_zero_eq {α : Type} [LinearOrder α] (x y : α)
    {dne : Decidable (x ≠ y)} {dlt : Decidable (y < x)}
    (h : (@ite Int (x ≠ y) dne (@ite Int (y < x) dlt 1 (-1)) 0) = 0) : x = y := by
  rw [pyCmp_eq_keyCmp] at h
  exact (keyCmp_eq_zero_iff x y).mp h

/-- One position of the segment loop, on two type-`0` parts whose values
both pass `int()`: the comparison is the integer comparison. -/
theorem segCmp_num (v1 v2 : String) (n1 n2 : Int)
    (e1 : pyInt v1 = some n1) (e2 : pyInt v2 = some n2) :
    segCmp (0, v1) (0, v2) = keyCmp n1 n2 := by
  unfold segCmp
  dsimp only
  rw [if_pos rfl, if_pos rfl, e1, e2]
  exact pyCmp_eq_keyCmp n1 n2

theorem compare_versions_cases (v1 v2 : String) :
    compare_versions v1 v2 =
      (if (parse_arch_version v1).1 ≠ (parse_arch_version v2).1
        then (if (parse_arch_version v2).1 < (parse_arch_version v1).1 then 1 else -1)
        else if cmpParts (parse_arch_version v1).2.1 (parse_arch_version v2).2.1 ≠ 0
          then cmpParts (parse_arch_version v1).2.1 (parse_arch_version v2).2.1
          else if (parse_arch_version v1).2.2 ≠ (parse_arch_version v2).2.2
            then (if (parse_arch_version v2).2.2 < (parse_arch_version v1).2.2 then 1 else -1)
            else 0) := rfl

/-! ### Positional lemmas about the segment loop -/

theorem segCmp_zero_symm (s1 s2 : Nat × String) (h : segCmp s1 s2 = 0) :
    segCmp s2 s1 = 0 := by
  obtain ⟨t1, v1⟩ := s1
  obtain ⟨t2, v2⟩ := s2
  by_cases ht : t1 = t2
  · subst ht
    unfold segCmp at h ⊢
    dsimp only at h ⊢
    rw [if_pos rfl] at h ⊢
    by_cases h0 : t1 = 0
    · rw [if_pos h0] at h ⊢
      cases e1 : pyInt v1 with
      | some n1 =>
        cases e2 : pyInt v2 with
        | some n2 =>
          rw [e1, e2] at h
          have hn : n1 = n2 := pyCmp_zero_eq n1 n2 h
          subst hn
          exact if_neg (not_not_intro rfl)
        | none =>
          rw [e1, e2] at h
          have hv : v1 = v2 := pyCmp_zero_eq v1 v2 h
          subst hv
          exact if_neg (not_not_intro rfl)
      | none =>
        cases e2 : pyInt v2 with
        | some n2 =>
          rw [e1, e2] at h
          have hv : v1 = v2 := pyCmp_zero_eq v1 v2 h
          subst hv
          exact if_neg (not_not_intro rfl)
        | none =>
          rw [e1, e2] at h
          have hv : v1 = v2 := pyCmp_zero_eq v1 v2 h
          subst hv
          exact if_neg (not_not_intro rfl)
    · rw [if_neg h0] at h ⊢
      have hv : v1 = v2 := pyCmp_zero_eq v1 v2 h
      subst hv
      exact if_neg (not_not_intro rfl)
  · exfalso
    unfold segCmp at h
    dsimp only at h
    rw [if_neg ht] at h
    split at h
    · exact absurd h (by decide)
    · exact absurd h (by decide)

/-- If every pairwise position compares equal (up to the shorter length)
and the first list is strictly longer, the loop falls through and the
length tie-break returns `1`. -/
theorem cmpParts_longer :
    ∀ (l2 l1 : List (Nat × String)),
      (∀ p ∈ List.zip l1 l2, segCmp p.1 p.2 = 0) →
      l2.length < l1.length → cmpParts l1 l2 = 1 := by
  intro l2
  induction l2 with
  | nil =>
    intro l1 _ hlen
    cases l1 with
    | nil => exact absurd hlen (by simp)
    | cons a as => rfl
  | cons b bs ih =>
    intro l1 hall hlen
    cases l1 with
    | nil => exact absurd hlen (by simp)
    | cons a as =>
      have hab : segCmp a b = 0 := hall (a, b) (by simp [List.zip_cons_cons])
      unfold cmpParts
      rw [if_neg (not_not_intro hab)]
      refine ih as ?_ (by simpa using hlen)
      intro p hp
      exact hall p (by simp [List.zip_cons_cons, hp])

/-- If the first `pre1.length = pre2.length` positions all compare equal
and the next position compares to `r ≠ 0`, the loop short-circuits with
`r`. -/
theorem cmpParts_firstDiff :
    ∀ (pre1 pre2 : List (Nat × String)) (s1 s2 : Nat × String)
      (rest1 rest2 : List (Nat × String)) (r : Int),
      pre1.length = pre2.length →
      (∀ p ∈ List.zip pre1 pre2, segCmp p.1 p.2 = 0) →
      segCmp s1 s2 = r → r ≠ 0 →
      cmpParts (pre1 ++ s1 :: rest1) (pre2 ++ s2 :: rest2) = r := by
  intro pre1
  induction pre1 with
  | nil =>
    intro pre2 s1 s2 rest1 rest2 r hlen _ hseg hr
    have : pre2 = [] := List.length_eq_zero.mp hlen.symm
    subst this
    simp only [List.nil_append]
    unfold cmpParts
    rw [hseg, if_pos hr]
  | cons a pre1' ih =>
    intro pre2 s1 s2 rest1 rest2 r hlen hall hseg hr
    cases pre2 with
    | nil => exact absurd hlen (by simp)
    | cons b pre2' =>
      have hab : segCmp a b = 0 := hall (a, b) (by simp [List.zip_cons_cons])
      simp only [List.cons_append]
      unfold cmpParts
      rw [if_neg (not_not_intro hab)]
      refine ih pre2' s1 s2 rest1 rest2 r (by simpa using hlen) ?_ hseg hr
      intro p hp
      exact hall p (by simp [List.zip_cons_cons, hp])

/-- When the epochs agree, `compare_versions` returns whatever non-zero
result the segment loop (with its length tie-break) produces, before ever
looking at the release fields. -/
theorem compare_of_parts (v1 v2 : String) (r : Int)
    (heq : (parse_arch_version v1).1 = (parse_arch_version v2).1)
    (hc : cmpParts (parse_arch_version v1).2.1 (parse_arch_version v2).2.1 = r)
    (hr : r ≠ 0) :
    compare_versions v1 v2 = r := by
  rw [compare_versions_cases, if_neg (not_not_intro heq), hc, if_pos hr]

/-! ### Lemmas about the filename parser -/

theorem dash_not_mem_archTokens : ∀ t ∈ archTokens, '-' ∉ t := by decide

/-- A successful architecture match captures a real token, and the match
runs from its start position to the `$`: the rest of `base` from the match
start is `-tok`, or `-tok` followed by one final newline. -/
theorem findArch_some :
    ∀ (base : List Char) (p : Nat) (tok : List Char),
      findArch base = some (p, tok) →
      tok ∈ archTokens ∧
        (base = base.take p ++ '-' :: tok ∨
          base = base.take p ++ '-' :: (tok ++ ['\n'])) := by
  intro base
  induction base with
  | nil => intro p tok h; exact absurd h (by simp [findArch])
  | cons c rest ih =>
    intro p tok h
    unfold findArch at h
    cases hf : archTokens.find? (fun t => archSuffixAt (c :: rest) t) with
    | some t =>
      rw [hf] at h
      injection h with h1
      injection h1 with hp htok
      subst hp
      subst htok
      refine ⟨List.mem_of_find?_eq_some hf, ?_⟩
      have hsat := List.find?_some hf
      simp only [archSuffixAt, Bool.or_eq_true, beq_iff_eq] at hsat
      rcases hsat with h1 | h1
      · exact Or.inl (by simpa using h1)
      · exact Or.inr (by simpa using h1)
    | none =>
      rw [hf] at h
      cases hrec : findArch rest with
      | none => rw [hrec] at h; exact absurd h (by simp)
      | some q =>
        rw [hrec] at h
        obtain ⟨q1, q2⟩ := q
        injection h with h1
        injection h1 with hp htok
        subst htok
        subst hp
        obtain ⟨htk, hdec⟩ := ih q1 q2 hrec
        refine ⟨htk, ?_⟩
        rcases hdec with hdec | hdec
        · exact Or.inl (by simpa [List.take_succ_cons] using congrArg (c :: ·) hdec)
        · exact Or.inr (by simpa [List.take_succ_cons] using congrArg (c :: ·) hdec)

/-- Wherever the final `-token` begins, the regex search finds exactly it:
every candidate match runs to the end of the string (or to just before one
final newline), tokens contain no `-`, and the rest of the string from any
earlier position still contains the final `-`. -/
theorem findArch_append :
    ∀ (X tok : List Char), tok ∈ archTokens →
      findArch (X ++ '-' :: tok) = some (X.length, tok) := by
  intro X
  induction X with
  | nil =>
    intro tok htok
    have hfind : archTokens.find? (fun t => archSuffixAt ('-' :: tok) t) = some tok := by
      fin_cases htok <;> decide
    simp only [List.nil_append, List.length_nil]
    unfold findArch
    rw [hfind]
  | cons c X' ih =>
    intro tok htok
    have hnone :
        archTokens.find? (fun t => archSuffixAt (c :: (X' ++ '-' :: tok)) t) = none := by
      rw [List.find?_eq_none]
      intro t ht hsat
      simp only [archSuffixAt, Bool.or_eq_true, beq_iff_eq] at hsat
      rcases hsat with heq | heq
      · injection heq with hc hrest
        exact dash_not_mem_archTokens t ht
          (hrest ▸ List.mem_append_right X' (List.mem_cons_self '-' tok))
      · injection heq with hc hrest
        have hdm : '-' ∈ t ++ ['\n'] :=
          hrest ▸ List.mem_append_right X' (List.mem_cons_self '-' tok)
        rcases List.mem_append.mp hdm with hin | hin
        · exact dash_not_mem_archTokens t ht hin
        · simp at hin
    simp only [List.cons_append]
    unfold findArch
    rw [hnone, ih tok htok]
    simp

/-- `findArch` fails exactly when no `-token` — bare or followed by one
final newline — is a suffix of `base`. -/
theorem findArch_none (base : List Char)
    (h : ∀ tok ∈ archTokens,
      ¬ ('-' :: tok <:+ base) ∧ ¬ ('-' :: (tok ++ ['\n']) <:+ base)) :
    findArch base = none := by
  cases hf : findArch base with
  | none => rfl
  | some q =>
    obtain ⟨p, tok⟩ := q
    obtain ⟨htok, hdec⟩ := findArch_some base p tok hf
    rcases hdec with hdec | hdec
    · exact absurd ⟨base.take p, hdec.symm⟩ (h tok htok).1
    · exact absurd ⟨base.take p, hdec.symm⟩ (h tok htok).2

/-- `s` is a suffix of `l` iff dropping all but the last `s.length`
characters of `l` yields `s` — the form of the check used in the embedding
of `endswith` + negative slicing. -/
theorem suffix_iff_drop (s l : List Char) :
    s <:+ l ↔ (s.length ≤ l.length ∧ l.drop (l.length - s.length) = s) := by
  constructor
  · rintro ⟨pre, hp⟩
    subst hp
    constructor
    · simp
    · have hlen : (pre ++ s).length - s.length = pre.length := by simp
      rw [hlen, List.drop_left]
  · rintro ⟨hle, hdrop⟩
    refine ⟨l.take (l.length - s.length), ?_⟩
    conv_rhs => rw [← List.take_append_drop (l.length - s.length) l]
    rw [hdrop]

/-- A successful version-start search exhibits the string as
`prefix ++ '-' :: rest` with `rest` starting with a digit. -/
theorem findVerStart_decomp :
    ∀ (l : List Char) (q : Nat), findVerStart l = some q →
      l.take q ++ '-' :: l.drop (q + 1) = l ∧ headDigit (l.drop (q + 1)) = true := by
  intro l
  induction l with
  | nil => intro q h; exact absurd h (by simp [findVerStart])
  | cons c rest ih =>
    intro q h
    unfold findVerStart at h
    split at h
    · rename_i hcond
      injection h with hq
      subst hq
      obtain ⟨hc, hd⟩ := hcond
      subst hc
      exact ⟨rfl, hd⟩
    · rename_i hcond
      cases hrec : findVerStart rest with
      | none => rw [hrec] at h; exact absurd h (by simp)
      | some q' =>
        rw [hrec] at h
        injection h with hq
        subst hq
        obtain ⟨hdec, hd⟩ := ih q' hrec
        constructor
        · simpa [List.take_cons, List.drop_succ_cons] using congrArg (c :: ·) hdec
        · simpa [List.drop_succ_cons] using hd

/-- Minimality of the version-start search: the returned index is at most
the position of any hyphen-followed-by-digit decomposition. -/
theorem findVerStart_min :
    ∀ (l : List Char) (q : Nat), findVerStart l = some q →
      ∀ (pre : List Char) (d : Char) (post : List Char),
        l = pre ++ '-' :: d :: post → d.isDigit = true → q ≤ pre.length := by
  intro l
  induction l with
  | nil => intro q h; exact absurd h (by simp [findVerStart])
  | cons c rest ih =>
    intro q h pre d post hdec hd
    unfold findVerStart at h
    split at h
    · injection h with hq
      subst hq
      exact Nat.zero_le _
    · rename_i hcond
      cases pre with
      | nil =>
        exfalso
        simp only [List.nil_append] at hdec
        injection hdec with hc hrest
        subst hc
        subst hrest
        exact hcond ⟨rfl, hd⟩
      | cons c' pre' =>
        injection hdec with hc hrest
        cases hrec : findVerStart rest with
        | none => rw [hrec] at h; exact absurd h (by simp)
        | some q' =>
          rw [hrec] at h
          injection h with hq
          subst hq
          have := ih q' hrec pre' d post hrest hd
          exact Nat.succ_le_succ this

/-- `parse_package_filename` with its intermediate `let`s expanded
(definitional restatement used to drive case analysis). -/
theorem parse_package_filename_cases (f : String) :
    parse_package_filename f =
      (if pkgSuffix.length ≤ f.toList.length ∧
          f.toList.drop (f.toList.length - pkgSuffix.length) = pkgSuffix then
        match findArch (f.toList.take (f.toList.length - pkgSuffix.length)) with
        | none => none
        | some (p, tok) =>
          match findVerStart ((f.toList.take (f.toList.length - pkgSuffix.length)).take p) with
          | none => none
          | some q =>
            if nameOk (((f.toList.take (f.toList.length - pkgSuffix.length)).take p).take q)
                && archOk tok then
              some (String.mk (((f.toList.take (f.toList.length - pkgSuffix.length)).take p).take q),
                String.mk (((f.toList.take (f.toList.length - pkgSuffix.length)).take p).drop (q + 1)),
                String.mk tok)
            else none
      else none) := rfl

/-- Everything a successful parse tells us about the filename's structure. -/
theorem parse_some_inv (f n v a : String)
    (h : parse_package_filename f = some (n, v, a)) :
    ∃ (base tok : List Char) (p q : Nat),
      f.toList = base ++ pkgSuffix ∧
      findArch base = some (p, tok) ∧
      tok ∈ archTokens ∧
      findVerStart (base.take p) = some q ∧
      n.toList = (base.take p).take q ∧
      v.toList = (base.take p).drop (q + 1) ∧
      a.toList = tok ∧
      nameOk n.toList = true ∧
      archOk tok = true ∧
      base.take p = n.toList ++ '-' :: v.toList ∧
      headDigit v.toList = true := by
  rw [parse_package_filename_cases f] at h
  split at h
  case isFalse => exact absurd h (by simp)
  case isTrue hc =>
    obtain ⟨hlen, hdrop⟩ := hc
    split at h
    · exact absurd h (by simp)
    · rename_i p tok heqArch
      split at h
      · exact absurd h (by simp)
      · rename_i q heqVer
        split at h
        · rename_i hchecks
          injection h with h1
          injection h1 with hA h2
          injection h2 with hB hT
          obtain ⟨hck1, hck2⟩ :
              nameOk (((f.toList.take (f.toList.length - pkgSuffix.length)).take p).take q) = true
                ∧ archOk tok = true := by
            simpa using hchecks
          have hnA : n.toList =
              ((f.toList.take (f.toList.length - pkgSuffix.length)).take p).take q := by
            rw [← hA]; rfl
          have hvB : v.toList =
              ((f.toList.take (f.toList.length - pkgSuffix.length)).take p).drop (q + 1) := by
            rw [← hB]; rfl
          have hdec := findVerStart_decomp _ q heqVer
          refine ⟨f.toList.take (f.toList.length - pkgSuffix.length), tok, p, q,
            ?_, heqArch, (findArch_some _ p tok heqArch).1, heqVer, hnA, hvB,
            ?_, ?_, hck2, ?_, ?_⟩
          · conv_lhs => rw [← List.take_append_drop (f.toList.length - pkgSuffix.length) f.toList]
            rw [hdrop]
          · rw [← hT]; rfl
          · rw [hnA]; exact hck1
          · rw [hnA, hvB]; exact hdec.1.symm
          · rw [hvB]; exact hdec.2
        · exact absurd h (by simp)

/-- `String.toList` distributes over append. -/
theorem toList_append (s t : String) : (s ++ t).toList = s.toList ++ t.toList :=
  String.data_append s t

/-- C2: for every filename the parser accepts, yielding
`(name, version, architecture)`, re-serializing as
`{name}-{version}-{architecture}.pkg.tar.zst` and re-parsing that string
yields the identical triple: parse is a left-inverse of the natural
serialization on all accepted filenames. -/
theorem parse_package_filename_roundtrip (f n v a : String)
    (h : parse_package_filename f = some (n, v, a)) :
    parse_package_filename (n ++ "-" ++ v ++ "-" ++ a ++ ".pkg.tar.zst") = some (n, v, a) := by
  obtain ⟨base, tok, p, q, hsplit, hfa, htok, hfv, hn, hv, ha, hnok, haok, hb2, hhd⟩ :=
    parse_some_inv f n v a h
  have hser : (n ++ "-" ++ v ++ "-" ++ a ++ ".pkg.tar.zst").toList
      = ((n.toList ++ '-' :: v.toList) ++ '-' :: tok) ++ pkgSuffix := by
    rw [toList_append, toList_append, toList_append, toList_append, ha]
    show (((n.toList ++ ['-']) ++ v.toList) ++ ['-']) ++ tok ++ pkgSuffix = _
    simp [List.append_assoc]
  have hidx : (((n.toList ++ '-' :: v.toList) ++ '-' :: tok) ++ pkgSuffix).length
      - pkgSuffix.length = ((n.toList ++ '-' :: v.toList) ++ '-' :: tok).length := by
    simp only [List.length_append, List.length_cons]
    omega
  rw [parse_package_filename_cases, hser, hidx, List.drop_left, List.take_left,
    if_pos ⟨by simp only [List.length_append, List.length_cons]; omega, rfl⟩]
  have hfa2 : findArch ((n.toList ++ '-' :: v.toList) ++ '-' :: tok)
      = some ((n.toList ++ '-' :: v.toList).length, tok) :=
    findArch_append (n.toList ++ '-' :: v.toList) tok htok
  rw [hfa2]
  have htk2 : ((n.toList ++ '-' :: v.toList) ++ '-' :: tok).take
      (n.toList ++ '-' :: v.toList).length = n.toList ++ '-' :: v.toList :=
    List.take_left _ _
  show (match findVerStart (((n.toList ++ '-' :: v.toList) ++ '-' :: tok).take
      (n.toList ++ '-' :: v.toList).length) with
    | none => none
    | some q =>
      if nameOk ((((n.toList ++ '-' :: v.toList) ++ '-' :: tok).take
            (n.toList ++ '-' :: v.toList).length).take q)
          && archOk tok then
        some (String.mk ((((n.toList ++ '-' :: v.toList) ++ '-' :: tok).take
            (n.toList ++ '-' :: v.toList).length).take q),
          String.mk ((((n.toList ++ '-' :: v.toList) ++ '-' :: tok).take
            (n.toList ++ '-' :: v.toList).length).drop (q + 1)),
          String.mk tok)
      else none) = some (n, v, a)
  rw [htk2, ← hb2, hfv, hb2]
  have hnq : (n.toList ++ '-' :: v.toList).take q = n.toList := by
    rw [← hb2, ← hn]
  have hvq : (n.toList ++ '-' :: v.toList).drop (q + 1) = v.toList := by
    rw [← hb2, ← hv]
  dsimp only
  rw [hnq, hvq]
  rw [if_pos (show (nameOk n.toList && archOk tok) = true by rw [hnok, haok]; rfl)]
  rw [← ha]
  rfl

theorem take_of_append_suffix (f : String) (base : List Char)
    (hb : f.toList = base ++ pkgSuffix) :
    f.toList.take (f.toList.length - pkgSuffix.length) = base := by
  rw [hb]
  have hl : (base ++ pkgSuffix).length - pkgSuffix.length = base.length := by
    simp only [List.length_append]
    omega
  rw [hl, List.take_left]

/-- A filename whose first digit-leading hyphen sits at position `0` of the
architecture-stripped base parses to an empty name, which the whitelist
check rejects. -/
theorem parse_rejects_empty_name (g : String) (base : List Char) (p : Nat) (tok : List Char)
    (hb : g.toList = base ++ pkgSuffix)
    (hfa : findArch base = some (p, tok))
    (hfv : findVerStart (base.take p) = some 0) :
    parse_package_filename g = none := by
  rw [parse_package_filename_cases]
  rw [if_pos ((suffix_iff_drop pkgSuffix g.toList).mp ⟨base, hb.symm⟩)]
  rw [take_of_append_suffix g base hb, hfa]
  dsimp only
  rw [hfv]
  dsimp only
  rw [show (base.take p).take 0 = ([] : List Char) from rfl]
  have hno : nameOk ([] : List Char) = false := by decide
  rw [if_neg (by rw [hno]; simp)]

/-! ### Claim theorems -/

/-- C1 (counterexample): the claim says the epoch defaults to `0` for every
left part that is not a valid non-negative integer, including `"-1"`; but
Python's `int("-1")` succeeds, so `parse_arch_version` yields the negative
epoch `-1`, not `0`, on the input `"-1:1.0-1"`. -/
theorem epoch_negative_counterexample :
    (parse_arch_version "-1:1.0-1").1 = -1 ∧ (parse_arch_version "-1:1.0-1").1 < 0 :=
  ⟨by decide, by decide⟩

/-- C1 (amended): when the version string contains `:`, the part before the
first `:` is parsed as the epoch with Python `int` semantics (optional sign
accepted), and every left part that `int` rejects — non-numeric text, the
empty string — silently defaults the epoch to `0`; a negative-number string
such as `"-1"` parses to a negative epoch rather than defaulting. -/
theorem epoch_from_first_colon (v : String) (l r : List Char)
    (h : splitFirst ':' v.toList = some (l, r)) :
    (parse_arch_version v).1 = (pyIntL l).getD 0 := by
  have h2 : splitFirst ':' v.data = some (l, r) := h
  simp [parse_arch_version, h2]

theorem epoch_from_first_colon_witness :
    splitFirst ':' "ab:1.0-1".toList = some ("ab".toList, "1.0-1".toList)
      ∧ (parse_arch_version "ab:1.0-1").1 = (pyIntL "ab".toList).getD 0 :=
  ⟨by decide, epoch_from_first_colon "ab:1.0-1" "ab".toList "1.0-1".toList (by decide)⟩

theorem parse_package_filename_roundtrip_witness :
    parse_package_filename
        ("localsend-bin" ++ "-" ++ "1.14.4-1" ++ "-" ++ "x86_64" ++ ".pkg.tar.zst")
      = some ("localsend-bin", "1.14.4-1", "x86_64") :=
  parse_package_filename_roundtrip "localsend-bin-1.14.4-1-x86_64.pkg.tar.zst"
    "localsend-bin" "1.14.4-1" "x86_64" (by decide)

/-- C3 (code bug): the claim — and the spec — require the order to be
transitive, but the program's comparison is not.  CPython's `str.isdigit`
accepts the superscript `'²'`, so `"5²"` is scanned into a single Numeric
segment; `int("5²")` then raises `ValueError` inside the comparison loop
and the `except` branch falls back to string comparison.  The result:
`compare("10","9") = 1` (integers), `compare("9","5²") = 1` (string
fallback, `'9' > '5'`), yet `compare("10","5²") = -1` (string fallback,
`'1' < '5'`). -/
theorem compare_versions_intransitive :
    compare_versions "10" "9" = 1 ∧ compare_versions "9" "5²" = 1
      ∧ compare_versions "10" "5²" = -1 := by
  have h59 : ("5²" : String) < "9" := by
    rw [String.lt_iff_toList_lt]
    show (['5', '²'] : List Char) < ['9']
    exact List.Lex.rel (by decide)
  have h105 : ("10" : String) < "5²" := by
    rw [String.lt_iff_toList_lt]
    show (['1', '0'] : List Char) < ['5', '²']
    exact List.Lex.rel (by decide)
  have e9 : pyInt "9" = some 9 := by decide
  have e10 : pyInt "10" = some 10 := by decide
  have e5 : pyInt "5²" = none := by decide
  have hseg95 : segCmp (0, "9") (0, "5²") = 1 := by
    unfold segCmp
    dsimp only
    rw [if_pos rfl, if_pos rfl, e9, e5]
    show (if ("9" : String) ≠ "5²" then (if ("5²" : String) < "9" then (1 : Int) else -1)
      else 0) = 1
    rw [if_pos (show ("9" : String) ≠ "5²" by decide), if_pos h59]
  have hseg105 : segCmp (0, "10") (0, "5²") = -1 := by
    unfold segCmp
    dsimp only
    rw [if_pos rfl, if_pos rfl, e10, e5]
    show (if ("10" : String) ≠ "5²" then (if ("5²" : String) < "10" then (1 : Int) else -1)
      else 0) = -1
    rw [if_pos (show ("10" : String) ≠ "5²" by decide), if_neg (asymm h105)]
  refine ⟨by decide, ?_, ?_⟩
  · refine compare_of_parts "9" "5²" 1 (by decide) ?_ (by decide)
    have hp9 : (parse_arch_version "9").2.1 = [(0, "9")] := by decide
    have hp5 : (parse_arch_version "5²").2.1 = [(0, "5²")] := by decide
    rw [hp9, hp5]
    unfold cmpParts
    rw [if_pos (show segCmp (0, "9") (0, "5²") ≠ 0 by rw [hseg95]; decide), hseg95]
  · refine compare_of_parts "10" "5²" (-1) (by decide) ?_ (by decide)
    have hp10 : (parse_arch_version "10").2.1 = [(0, "10")] := by decide
    have hp5 : (parse_arch_version "5²").2.1 = [(0, "5²")] := by decide
    rw [hp10, hp5]
    unfold cmpParts
    rw [if_pos (show segCmp (0, "10") (0, "5²") ≠ 0 by rw [hseg105]; decide), hseg105]

/-- C4: with equal epochs and every pairwise segment position (up to the
shorter length) comparing equal, the key with strictly more segments is
GREATER, decided before and regardless of the release fields (no hypothesis
on the releases is needed); in particular
`compare_versions "1.2.3" "1.2.3.r1.g1234abc" = -1`. -/
theorem length_tiebreak_wins (v1 v2 : String)
    (heq : (parse_arch_version v1).1 = (parse_arch_version v2).1)
    (hall : ∀ p ∈ List.zip (parse_arch_version v1).2.1 (parse_arch_version v2).2.1,
      segCmp p.1 p.2 = 0)
    (hlen : (parse_arch_version v2).2.1.length < (parse_arch_version v1).2.1.length) :
    compare_versions v1 v2 = 1
      ∧ compare_versions "1.2.3" "1.2.3.r1.g1234abc" = -1 :=
  ⟨compare_of_parts v1 v2 1 heq (cmpParts_longer _ _ hall hlen) (by decide), by decide⟩

theorem length_tiebreak_wins_witness :
    compare_versions "1.2" "1" = 1
      ∧ compare_versions "1.2.3" "1.2.3.r1.g1234abc" = -1 :=
  length_tiebreak_wins "1.2" "1" (by decide) (by decide) (by decide)

/-- C5: at the first segment position where both segments are Numeric
(type `0`) and their integer values differ, the result follows
integer-value order, not string order: `"10"` beats `"9"`, `"11433"` beats
`"11432"`, and `compare_versions "7.0.33.11433-1" "7.0.33.11432-1" = 1`. -/
theorem numeric_segments_integer_order (v1 v2 : String)
    (pre1 pre2 rest1 rest2 : List (Nat × String)) (d1 d2 : String) (n1 n2 : Int)
    (heq : (parse_arch_version v1).1 = (parse_arch_version v2).1)
    (hd1 : (parse_arch_version v1).2.1 = pre1 ++ (0, d1) :: rest1)
    (hd2 : (parse_arch_version v2).2.1 = pre2 ++ (0, d2) :: rest2)
    (hlen : pre1.length = pre2.length)
    (hpre : ∀ p ∈ List.zip pre1 pre2, segCmp p.1 p.2 = 0)
    (hn1 : pyInt d1 = some n1) (hn2 : pyInt d2 = some n2) (hgt : n2 < n1) :
    compare_versions v1 v2 = 1
      ∧ segCmp (0, "10") (0, "9") = 1
      ∧ segCmp (0, "11433") (0, "11432") = 1
      ∧ compare_versions "7.0.33.11433-1" "7.0.33.11432-1" = 1 := by
  refine ⟨?_, by decide, by decide, by decide⟩
  have hseg : segCmp (0, d1) (0, d2) = 1 := by
    rw [segCmp_num d1 d2 n1 n2 hn1 hn2]
    exact (keyCmp_eq_one_iff n1 n2).mpr hgt
  refine compare_of_parts v1 v2 1 heq ?_ (by decide)
  rw [hd1, hd2]
  exact cmpParts_firstDiff pre1 pre2 _ _ rest1 rest2 1 hlen hpre hseg (by decide)

theorem numeric_segments_integer_order_witness :
    compare_versions "10" "9" = 1 := by
  have h := numeric_segments_integer_order "10" "9" [] [] [] [] "10" "9" 10 9
    (by decide) (by decide) (by decide) (by decide) (by simp) (by decide) (by decide) (by decide)
  exact h.1

/-- C6: the filename parser splits name from version at the first hyphen
(scanning left to right) that is immediately followed by a digit, not at
the last hyphen: for every accepted filename, the architecture-stripped
base (the part of the suffix-stripped filename before the architecture
match) is exactly `name ++ "-" ++ version`, the version starts with a
digit, no digit-leading hyphen occurs before the split point, and
`parse("localsend-bin-1.14.4-1-x86_64.pkg.tar.zst")` recovers
`("localsend-bin", "1.14.4-1", "x86_64")`. -/
theorem parse_splits_at_first_digit_hyphen (f n v a : String)
    (h : parse_package_filename f = some (n, v, a)) :
    (∃ (base : List Char) (p : Nat),
        f.toList = base ++ pkgSuffix
      ∧ findArch base = some (p, a.toList)
      ∧ base.take p = n.toList ++ '-' :: v.toList)
  ∧ headDigit v.toList = true
  ∧ (∀ (pre : List Char) (d : Char) (post : List Char),
      n.toList ++ '-' :: v.toList = pre ++ '-' :: d :: post → d.isDigit = true →
      n.toList.length ≤ pre.length)
  ∧ parse_package_filename "localsend-bin-1.14.4-1-x86_64.pkg.tar.zst"
      = some ("localsend-bin", "1.14.4-1", "x86_64") := by
  obtain ⟨base, tok, p, q, hsplit, hfa, htok, hfv, hn, hv, ha, hnok, haok, hb2, hhd⟩ :=
    parse_some_inv f n v a h
  refine ⟨⟨base, p, hsplit, ?_, hb2⟩, hhd, ?_, by decide⟩
  · rw [ha]
    exact hfa
  · intro pre d post hdec hd
    have hmin := findVerStart_min (base.take p) q hfv pre d post (by rw [hb2, hdec]) hd
    have hle : n.toList.length ≤ q := by
      rw [hn, List.length_take]
      exact min_le_left _ _
    exact le_trans hle hmin

theorem parse_splits_at_first_digit_hyphen_witness :
    headDigit "1.14.4-1".toList = true
      ∧ parse_package_filename "localsend-bin-1.14.4-1-x86_64.pkg.tar.zst"
          = some ("localsend-bin", "1.14.4-1", "x86_64") :=
  ⟨(parse_splits_at_first_digit_hyphen "localsend-bin-1.14.4-1-x86_64.pkg.tar.zst"
      "localsend-bin" "1.14.4-1" "x86_64" (by decide)).2.1,
   (parse_splits_at_first_digit_hyphen "localsend-bin-1.14.4-1-x86_64.pkg.tar.zst"
      "localsend-bin" "1.14.4-1" "x86_64" (by decide)).2.2.2⟩

/-- C7 (counterexample): the claim says any filename whose remainder lacks
a trailing `-` plus architecture token is rejected; but Python's `$` also
matches just before one final newline, so the program accepts
`"foo-1-x86_64\n.pkg.tar.zst"` — whose base ends in a newline and has no
`-token` as a literal suffix — and parses it to `("foo", "1", "x86_64")`. -/
theorem parse_accepts_newline_before_suffix :
    parse_package_filename "foo-1-x86_64\n.pkg.tar.zst" = some ("foo", "1", "x86_64")
  ∧ (∀ tok ∈ archTokens, ¬ ('-' :: tok <:+ "foo-1-x86_64\n".toList)) :=
  ⟨by decide, by decide⟩

/-- C7 (amended): the parser rejects (returns `none` for) every string
that does not end with `.pkg.tar.zst`, and every string that does but
whose remainder has neither a trailing `-token` nor a trailing `-token`
followed by one final newline (the extra case Python's `$` matches); and
there is no partial-success result: the parser returns a full triple or
`none`. -/
theorem parse_rejects (f : String) :
    (¬ (pkgSuffix <:+ f.toList) → parse_package_filename f = none)
  ∧ (∀ base : List Char, f.toList = base ++ pkgSuffix →
      (∀ tok ∈ archTokens,
        ¬ ('-' :: tok <:+ base) ∧ ¬ ('-' :: (tok ++ ['\n']) <:+ base)) →
      parse_package_filename f = none)
  ∧ (parse_package_filename f = none ∨
      ∃ n v a : String, parse_package_filename f = some (n, v, a)) := by
  refine ⟨?_, ?_, ?_⟩
  · intro hnot
    rw [parse_package_filename_cases]
    rw [if_neg (fun hc => hnot ((suffix_iff_drop pkgSuffix f.toList).mpr hc))]
  · intro base hb hnone
    rw [parse_package_filename_cases]
    rw [if_pos ((suffix_iff_drop pkgSuffix f.toList).mp ⟨base, hb.symm⟩)]
    rw [take_of_append_suffix f base hb, findArch_none base hnone]
  · cases hp : parse_package_filename f with
    | none => exact Or.inl rfl
    | some t =>
      obtain ⟨x, y, z⟩ := t
      exact Or.inr ⟨x, y, z, rfl⟩

theorem parse_rejects_witness :
    parse_package_filename "notapackage.txt" = none
      ∧ parse_package_filename "abc-1.0-1-mips.pkg.tar.zst" = none :=
  ⟨(parse_rejects "notapackage.txt").1 (by decide),
   (parse_rejects "abc-1.0-1-mips.pkg.tar.zst").2.1 "abc-1.0-1-mips".toList
     (by decide) (by decide)⟩

theorem mem_zip_swap {A B : Type} :
    ∀ (l1 : List A) (l2 : List B) (p : B × A), p ∈ l2.zip l1 → (p.2, p.1) ∈ l1.zip l2 := by
  intro l1
  induction l1 with
  | nil =>
    intro l2 p hp
    cases l2 with
    | nil => simp [List.zip] at hp
    | cons b bs => simp [List.zip] at hp
  | cons a as ih =>
    intro l2 p hp
    cases l2 with
    | nil => simp [List.zip] at hp
    | cons b bs =>
      rw [List.zip_cons_cons] at hp
      rcases List.mem_cons.mp hp with h1 | h1
      · subst h1
        simp [List.zip_cons_cons]
      · have hm := ih bs p h1
        simp [List.zip_cons_cons]
        right
        exact hm

/-- C8: at the first segment position where the two segments' type tags
differ, a Numeric (type `0`) segment sorts strictly below an Alpha or
Separator segment, and the comparison short-circuits there (no hypothesis
on later segments or the release fields is needed). -/
theorem numeric_sorts_below_other_tags (v1 v2 : String)
    (pre1 pre2 rest1 rest2 : List (Nat × String)) (t : Nat) (s u : String)
    (heq : (parse_arch_version v1).1 = (parse_arch_version v2).1)
    (hd1 : (parse_arch_version v1).2.1 = pre1 ++ (0, s) :: rest1)
    (hd2 : (parse_arch_version v2).2.1 = pre2 ++ (t, u) :: rest2)
    (hlen : pre1.length = pre2.length)
    (hpre : ∀ p ∈ List.zip pre1 pre2, segCmp p.1 p.2 = 0)
    (ht : t ≠ 0) :
    compare_versions v1 v2 = -1 ∧ compare_versions v2 v1 = 1 := by
  have hseg1 : segCmp (0, s) (t, u) = -1 := by
    unfold segCmp
    dsimp only
    rw [if_neg (fun hh => ht hh.symm), if_neg (Nat.not_lt_zero t)]
  have hseg2 : segCmp (t, u) (0, s) = 1 := by
    unfold segCmp
    dsimp only
    rw [if_neg ht, if_pos (Nat.pos_of_ne_zero ht)]
  constructor
  · refine compare_of_parts v1 v2 (-1) heq ?_ (by decide)
    rw [hd1, hd2]
    exact cmpParts_firstDiff pre1 pre2 _ _ rest1 rest2 (-1) hlen hpre hseg1 (by decide)
  · refine compare_of_parts v2 v1 1 heq.symm ?_ (by decide)
    rw [hd1, hd2]
    refine cmpParts_firstDiff pre2 pre1 _ _ rest2 rest1 1 hlen.symm ?_ hseg2 (by decide)
    intro p hp
    have hswap : (p.2, p.1) ∈ List.zip pre1 pre2 := mem_zip_swap pre1 pre2 p hp
    have hz := hpre (p.2, p.1) hswap
    exact segCmp_zero_symm p.2 p.1 hz

theorem numeric_sorts_below_other_tags_witness :
    compare_versions "1.2" "1.a" = -1 ∧ compare_versions "1.a" "1.2" = 1 :=
  numeric_sorts_below_other_tags "1.2" "1.a" [(0, "1"), (2, ".")] [(0, "1"), (2, ".")]
    [] [] 1 "2" "a" (by decide) (by decide) (by decide) (by decide) (by decide) (by decide)

/-- C9: the epoch dominates: whenever the parsed epochs differ, the result
of `compare_versions` is the numeric epoch comparison, regardless of the
segment lists and release fields; in particular
`compare_versions "1:1.0-1" "2.0-1" = 1`. -/
theorem epoch_dominates (v1 v2 : String)
    (h : (parse_arch_version v2).1 < (parse_arch_version v1).1) :
    compare_versions v1 v2 = 1 ∧ compare_versions v2 v1 = -1
      ∧ compare_versions "1:1.0-1" "2.0-1" = 1 := by
  refine ⟨?_, ?_, by decide⟩
  · rw [compare_versions_cases, if_pos (ne_of_gt h), if_pos h]
  · rw [compare_versions_cases, if_pos (ne_of_lt h), if_neg (asymm h)]

theorem epoch_dominates_witness :
    compare_versions "1:0" "0" = 1 ∧ compare_versions "0" "1:0" = -1
      ∧ compare_versions "1:1.0-1" "2.0-1" = 1 :=
  epoch_dominates "1:0" "0" (by decide)

/-- C10 (counterexample): the claim says every accepted name matches the
whitelist `[A-Za-z0-9@._+-]+`; but `re.match`'s `$` also matches before
one final newline, so the program accepts `"abc\n-1-x86_64.pkg.tar.zst"`
with name `"abc\n"`, whose newline is outside the whitelist. -/
theorem parse_accepts_newline_name :
    parse_package_filename "abc\n-1-x86_64.pkg.tar.zst" = some ("abc\n", "1", "x86_64")
  ∧ "abc\n".toList.all allowedNameChar = false :=
  ⟨by decide, by decide⟩

/-- C10 (amended): for every accepted filename the returned name is
non-empty and, after setting aside one optional trailing newline (accepted
by the `$` of `re.match`), is still non-empty and consists of whitelist
characters only; the returned version begins with an ASCII digit; and an
input whose digit-leading hyphen is at position `0` of the stripped base
(which would make the name empty) is rejected rather than parsed. -/
theorem parse_name_nonempty_version_digit (f n v a : String)
    (h : parse_package_filename f = some (n, v, a)) :
    (n.toList ≠ []
      ∧ stripOneNl n.toList ≠ []
      ∧ (stripOneNl n.toList).all allowedNameChar = true
      ∧ ∃ (d : Char) (rest : List Char), v.toList = d :: rest ∧ d.isDigit = true)
  ∧ (∀ (g : String) (base : List Char) (p : Nat) (tok : List Char),
      g.toList = base ++ pkgSuffix → findArch base = some (p, tok) →
      findVerStart (base.take p) = some 0 → parse_package_filename g = none) := by
  obtain ⟨base, tok, p, q, hsplit, hfa, htok, hfv, hn, hv, ha, hnok, haok, hb2, hhd⟩ :=
    parse_some_inv f n v a h
  obtain ⟨hne, hall⟩ :
      (!(stripOneNl n.toList).isEmpty) = true
        ∧ (stripOneNl n.toList).all allowedNameChar = true := by
    simpa [nameOk] using hnok
  have hsne : stripOneNl n.toList ≠ [] := by
    intro hemp
    rw [hemp] at hne
    exact absurd hne (by decide)
  refine ⟨⟨?_, hsne, hall, ?_⟩, ?_⟩
  · intro hemp
    apply hsne
    rw [hemp]
    rfl
  · cases hvl : v.toList with
    | nil => rw [hvl] at hhd; exact absurd hhd (by decide)
    | cons d rest =>
      rw [hvl] at hhd
      exact ⟨d, rest, rfl, hhd⟩
  · intro g base2 p2 tok2 hb2' hfa2 hfv2
    exact parse_rejects_empty_name g base2 p2 tok2 hb2' hfa2 hfv2

theorem parse_name_nonempty_version_digit_witness :
    "claude-code".toList ≠ []
      ∧ stripOneNl "claude-code".toList ≠ []
      ∧ (stripOneNl "claude-code".toList).all allowedNameChar = true
      ∧ ∃ (d : Char) (rest : List Char), "2.1.59-1".toList = d :: rest ∧ d.isDigit = true :=
  (parse_name_nonempty_version_digit "claude-code-2.1.59-1-x86_64.pkg.tar.zst"
    "claude-code" "2.1.59-1" "x86_64" (by decide)).1

end CheckAurUpdates
